import Mathlib

/-!
Verification of the coverage-route finder in `main.py`.

The program decides whether two points of the plane are connected through a
chain of overlapping circular coverage regions, each centred on a transceiver
and sized by a power-derived radius.  This file gives a shallow embedding of
the core (`Transceiver` with its geometric predicates, the class-level
registry of all constructed instances, the route-generating traversal
`generate_possible_routes` and the orchestrator `find_route`) and proves the
specification claims about it.

Modelling choices, each tied to a line of the source:

* Numbers are real.  `Point` mirrors the `Point` namedtuple.
* Python compares `Transceiver` objects by identity (`self is not t`, and
  `transceiver not in visited` falls back to object identity because the
  class defines no equality).  Every constructed instance is appended exactly
  once to the class-level registry `Transceiver.__all`, so an object is
  faithfully identified by its registry index; the registry itself is an
  explicit `List Transceiver` of field data, and a route is a list of
  indices.
* `generate_possible_routes` is a generator that iterates over the `routes`
  worklist while appending to it, shares one `visited` list across all
  nested recursive calls, and recurses into a fresh full scan of the
  worklist after every yield.  It is embedded as the fuel-indexed pair
  `genAux` (the `for route in routes` loop, resumed at index `i`) and
  `procNs` (the `for transceiver in last.neighbours` loop), which thread the
  shared `routes` and `visited` state and return the list of yielded routes
  in yield order.  Fuel exhaustion returns `none`; `fuel0` is proved
  sufficient below, so the wrapper `generate_possible_routes` never takes
  its `none` branch.
* `find_route` consumes the generator lazily, but the generator's behaviour
  does not depend on its consumer, so returning the first yielded route
  whose last transceiver covers point B equals `List.find?` over the full
  yield sequence.  Because `Transceiver.__init__` appends to the process-wide
  registry, `find_route` takes the prior registry contents as an argument
  and returns the updated registry beside its result; the program's single
  invocation corresponds to `find_route []`.
-/

/-- Planar point, mirroring the `Point` namedtuple of `main.py`. -/
structure Point where
  x : ℝ
  y : ℝ

/-- Field data of one `Transceiver` instance: its location and power. -/
structure Transceiver where
  location : Point
  power : ℝ

namespace Transceiver

/-- Class constant `REC_MIN_DENSITY = 1`: minimum received power density. -/
def REC_MIN_DENSITY : ℝ := 1

/-- Coverage radius, from the `range` property:
`sqrt(self.power / self.REC_MIN_DENSITY / (4 * math.pi))`. -/
noncomputable def range (t : Transceiver) : ℝ :=
  Real.sqrt (t.power / REC_MIN_DENSITY / (4 * Real.pi))

/-- The `covers_point` predicate: the squared distance from the point to the
transceiver location is at most the squared range. -/
def covers_point (t : Transceiver) (point : Point) : Prop :=
  (point.x - t.location.x) ^ 2 + (point.y - t.location.y) ^ 2 ≤ t.range ^ 2

/-- The `is_neighbour` predicate: the squared distance between the two
locations is at most the square of the sum of the ranges. -/
def is_neighbour (t other : Transceiver) : Prop :=
  (other.location.x - t.location.x) ^ 2 + (other.location.y - t.location.y) ^ 2
    ≤ (t.range + other.range) ^ 2

end Transceiver

/-- Squared Euclidean distance between two points. -/
def distSq (p q : Point) : ℝ := (p.x - q.x) ^ 2 + (p.y - q.y) ^ 2

/-- Default transceiver backing out-of-range registry access; valid indices
never reach it. -/
instance : Inhabited Transceiver := ⟨⟨⟨0, 0⟩, 0⟩⟩

/-- The transceiver object a registry index denotes (`Transceiver.__all[i]`). -/
def nth (all : List Transceiver) (i : Nat) : Transceiver := all.getD i default

/-- A route is a list of registry indices, Python object identity being
registry position. -/
abbrev Route := List Nat

/-- Registry index of a route's last transceiver (`route[-1]`). -/
def lastIdx (r : Route) : Nat := r.getLastD 0

open Classical in
/-- The `neighbours` property: filter the whole registry for
`self.is_neighbour(t) and self is not t`, in registry order. -/
noncomputable def neighbours (all : List Transceiver) (i : Nat) : List Nat :=
  (List.range all.length).filter fun j =>
    decide ((nth all i).is_neighbour (nth all j) ∧ i ≠ j)

mutual

/-- The `for route in routes` loop of `generate_possible_routes`, resumed at
worklist index `i`; the worklist is scanned while it grows.  Returns the
final `routes` and `visited` lists and the routes yielded, in yield order;
`none` means the fuel ran out. -/
noncomputable def genAux (all : List Transceiver) :
    Nat → List Route → List Nat → Nat → Option (List Route × List Nat × List Route)
  | 0, _, _, _ => none
  | fuel + 1, routes, visited, i =>
    if i < routes.length then
      match procNs all fuel (neighbours all (lastIdx (routes.getD i [])))
          (routes.getD i []) routes visited with
      | none => none
      | some (routes1, visited1, ys1) =>
        match genAux all fuel routes1 visited1 (i + 1) with
        | none => none
        | some (routes2, visited2, ys2) => some (routes2, visited2, ys1 ++ ys2)
    else
      some (routes, visited, [])

/-- The `for transceiver in last.neighbours` loop: each neighbour not yet in
the shared `visited` list is appended to it, the extended route is appended
to the worklist and yielded, and the generator recurses into a fresh scan of
the whole worklist (`yield from transceiver.generate_possible_routes(routes,
visited)`, whose `routes or [[self]]` keeps the non-empty shared lists)
before the neighbour loop continues. -/
noncomputable def procNs (all : List Transceiver) :
    Nat → List Nat → Route → List Route → List Nat → Option (List Route × List Nat × List Route)
  | 0, _, _, _, _ => none
  | _ + 1, [], _, routes, visited => some (routes, visited, [])
  | fuel + 1, t :: ns, route, routes, visited =>
    if t ∈ visited then
      procNs all fuel ns route routes visited
    else
      match genAux all fuel (routes ++ [route ++ [t]]) (visited ++ [t]) 0 with
      | none => none
      | some (routes1, visited1, ys1) =>
        match procNs all fuel ns route routes1 visited1 with
        | none => none
        | some (routes2, visited2, ys2) =>
          some (routes2, visited2, (route ++ [t]) :: (ys1 ++ ys2))

end

/-- Fuel proved sufficient below for a full traversal over a registry of the
given size. -/
def fuel0 (all : List Transceiver) : Nat :=
  (2 * all.length + 6) * all.length + all.length + 4

/-- The generator `generate_possible_routes()` run to exhaustion from the
transceiver with registry index `s`: its initial worklist is `[[self]]` and
its initial visited list `[self]`.  The `none` branch is dead by the
sufficiency theorem for `fuel0`. -/
noncomputable def generate_possible_routes (all : List Transceiver) (s : Nat) : List Route :=
  match genAux all (fuel0 all) [[s]] [s] 0 with
  | some (_, _, ys) => ys
  | none => []

/-- The parsed input dataset: transceiver field data in input order, and the
two query points. -/
structure Dataset where
  transceivers : List Transceiver
  A : Point
  B : Point

open Classical in
/-- The inner loop of `find_route` for one start transceiver: the first
yielded route whose last transceiver covers point B. -/
noncomputable def searchCoversB (all : List Transceiver) (pb : Point) (s : Nat) : Option Route :=
  (generate_possible_routes all s).find? fun r =>
    decide ((nth all (lastIdx r)).covers_point pb)

/-- The outer loop of `find_route`: the first successful search over the
start candidates, in input order. -/
noncomputable def firstRoute (all : List Transceiver) (pb : Point) : List Nat → Option Route
  | [] => none
  | s :: rest =>
    match searchCoversB all pb s with
    | some r => some r
    | none => firstRoute all pb rest

open Classical in
/-- The orchestrator `find_route(data)`.  Constructing the dataset's
transceivers appends them, in order, to the process-wide registry, so the
call takes the prior registry contents and returns the grown registry beside
its result.  The start candidates are the freshly constructed transceivers
covering point A, in input order; the program's single call is
`find_route []`. -/
noncomputable def find_route (registry : List Transceiver) (data : Dataset) :
    Option Route × List Transceiver :=
  let all := registry ++ data.transceivers
  let starts := (List.range' registry.length data.transceivers.length).filter
    fun i => decide ((nth all i).covers_point data.A)
  (firstRoute all data.B starts, all)

/-- One step of the overlap graph on registry indices: the two transceivers
are neighbours, the objects are distinct, and the target index is valid.
This is exactly what membership in a `neighbours` list guarantees. -/
def edgeOK (all : List Transceiver) (a b : Nat) : Prop :=
  (nth all a).is_neighbour (nth all b) ∧ a ≠ b ∧ b < all.length

/-- Every consecutive pair of a route is an overlap-graph step. -/
def chainOK (all : List Transceiver) (r : Route) : Prop := List.Chain' (edgeOK all) r

/-- Reachability in the overlap graph on registry indices. -/
def Reaches (all : List Transceiver) (i j : Nat) : Prop :=
  Relation.ReflTransGen (edgeOK all) i j

/-- The transceiver objects a route of registry indices denotes. -/
def routeData (all : List Transceiver) (r : Route) : List Transceiver :=
  r.map (nth all)

/-- Invariant of the traversal state for a search started at registry index
`s`: every worklist entry is a non-empty duplicate-free overlap chain
starting at `s` whose members are all visited; the visited list is
duplicate-free and holds `s` and valid indices only; and the worklist and
the visited list grew in lockstep from `[[s]]` and `[s]`. -/
structure GenInv (all : List Transceiver) (s : Nat) (routes : List Route)
    (visited : List Nat) : Prop where
  ne : ∀ r ∈ routes, r ≠ []
  hd : ∀ r ∈ routes, r.headD 0 = s
  chain : ∀ r ∈ routes, chainOK all r
  nodup : ∀ r ∈ routes, r.Nodup
  subv : ∀ r ∈ routes, ∀ x ∈ r, x ∈ visited
  vnodup : visited.Nodup
  vmem : ∀ x ∈ visited, x = s ∨ x < all.length
  count : routes.length = visited.length

/-! ## Geometry: range, coverage and neighbourhood (claims C6, C7, C8) -/

/-- A transceiver whose power is written as a scaled square has that exact
radius; used to evaluate ranges of concrete transceivers. -/
theorem range_eq_of_sq (t : Transceiver) (r : ℝ) (hr : 0 ≤ r)
    (h : t.power = 4 * Real.pi * r ^ 2) : t.range = r := by
  unfold Transceiver.range
  rw [h, show 4 * Real.pi * r ^ 2 / Transceiver.REC_MIN_DENSITY / (4 * Real.pi) = r ^ 2 by
    unfold Transceiver.REC_MIN_DENSITY
    field_simp]
  exact Real.sqrt_sq hr

/-- Claim C6: a transceiver's range is `sqrt(power / MIN_DENSITY / (4π))`
with the fixed constant `MIN_DENSITY`, it is a pure function of the power,
and positive power gives positive range. -/
theorem range_formula (t : Transceiver) :
    t.range = Real.sqrt (t.power / Transceiver.REC_MIN_DENSITY / (4 * Real.pi)) ∧
    (∀ u : Transceiver, t.power = u.power → t.range = u.range) ∧
    (0 < t.power → 0 < t.range) := by
  refine ⟨rfl, ?_, ?_⟩
  · intro u h
    unfold Transceiver.range
    rw [h]
  · intro h
    have hpi : 0 < Real.pi := Real.pi_pos
    have harg : 0 < t.power / Transceiver.REC_MIN_DENSITY / (4 * Real.pi) := by
      unfold Transceiver.REC_MIN_DENSITY
      positivity
    exact Real.sqrt_pos.mpr harg

/-- Witness for C6 at a concrete transceiver of power `4π`. -/
theorem range_formula_witness :
    (0 : ℝ) < (Transceiver.mk ⟨0, 0⟩ (4 * Real.pi)).power ∧
    (Transceiver.mk ⟨0, 0⟩ (4 * Real.pi)).power =
      (Transceiver.mk ⟨1, 1⟩ (4 * Real.pi)).power ∧
    (Transceiver.mk ⟨0, 0⟩ (4 * Real.pi)).range =
      (Transceiver.mk ⟨1, 1⟩ (4 * Real.pi)).range ∧
    0 < (Transceiver.mk ⟨0, 0⟩ (4 * Real.pi)).range := by
  have hp : (0 : ℝ) < (Transceiver.mk ⟨0, 0⟩ (4 * Real.pi)).power := by
    show (0 : ℝ) < 4 * Real.pi
    positivity
  exact ⟨hp, rfl, (range_formula _).2.1 _ rfl, (range_formula _).2.2 hp⟩

/-- Claim C7: `covers_point` holds exactly when the squared distance from the
point to the location is at most the squared range, and a point at squared
distance exactly the squared range (the boundary) is covered. -/
theorem covers_point_iff_distSq (t : Transceiver) (p : Point) :
    (t.covers_point p ↔ distSq p t.location ≤ t.range ^ 2) ∧
    (distSq p t.location = t.range ^ 2 → t.covers_point p) := by
  constructor
  · exact Iff.rfl
  · intro h
    exact le_of_eq h

/-- Witness for C7 at the exact boundary: the point `(5, 0)` is at distance
exactly `5` from a transceiver of range `5` and is covered. -/
theorem covers_point_iff_distSq_witness :
    distSq ⟨5, 0⟩ (Transceiver.mk ⟨0, 0⟩ (100 * Real.pi)).location =
      (Transceiver.mk ⟨0, 0⟩ (100 * Real.pi)).range ^ 2 ∧
    (Transceiver.mk ⟨0, 0⟩ (100 * Real.pi)).covers_point ⟨5, 0⟩ := by
  have hr : (Transceiver.mk ⟨0, 0⟩ (100 * Real.pi)).range = 5 := by
    refine range_eq_of_sq _ 5 (by norm_num) ?_
    show (100 : ℝ) * Real.pi = _
    ring
  have hd : distSq ⟨5, 0⟩ (Transceiver.mk ⟨0, 0⟩ (100 * Real.pi)).location =
      (Transceiver.mk ⟨0, 0⟩ (100 * Real.pi)).range ^ 2 := by
    rw [hr]
    show ((5 : ℝ) - 0) ^ 2 + ((0 : ℝ) - 0) ^ 2 = 5 ^ 2
    norm_num
  exact ⟨hd, (covers_point_iff_distSq _ _).2 hd⟩

/-- Claim C8: the neighbour predicate is symmetric, and it holds exactly when
the squared distance between the locations is at most the squared sum of the
two ranges. -/
theorem is_neighbour_symm (a b : Transceiver) :
    (a.is_neighbour b ↔ b.is_neighbour a) ∧
    (a.is_neighbour b ↔ distSq a.location b.location ≤ (a.range + b.range) ^ 2) := by
  unfold Transceiver.is_neighbour distSq
  constructor
  · rw [show (a.location.x - b.location.x) ^ 2 + (a.location.y - b.location.y) ^ 2 =
        (b.location.x - a.location.x) ^ 2 + (b.location.y - a.location.y) ^ 2 by ring,
      add_comm b.range a.range]
  · rw [show (a.location.x - b.location.x) ^ 2 + (a.location.y - b.location.y) ^ 2 =
        (b.location.x - a.location.x) ^ 2 + (b.location.y - a.location.y) ^ 2 by ring]

/-! ## Worklist invariants of the traversal -/

/-- A duplicate-free list is no longer than any list containing it. -/
theorem nodup_length_le {l m : List Nat} (h1 : l.Nodup) (h2 : ∀ x ∈ l, x ∈ m) :
    l.length ≤ m.length :=
  (List.Nodup.subperm h1 h2).length_le

/-- Appending on the right keeps the head of a non-empty list. -/
theorem headD_append (r l : List Nat) (h : r ≠ []) : (r ++ l).headD 0 = r.headD 0 := by
  cases r with
  | nil => exact absurd rfl h
  | cons a t => rfl

/-- The last index of a route extended by one element. -/
theorem lastIdx_concat (r : Route) (t : Nat) : lastIdx (r ++ [t]) = t := by
  unfold lastIdx
  exact List.getLastD_concat _ _ _

/-- On a non-empty route, `lastIdx` is the optional last element. -/
theorem getLast?_eq_lastIdx (r : Route) (h : r ≠ []) : r.getLast? = some (lastIdx r) := by
  unfold lastIdx
  rw [List.getLast?_eq_getLast r h, List.getLastD_eq_getLast? 0 r,
    List.getLast?_eq_getLast r h]
  rfl

/-- Membership in a `neighbours` list is exactly an overlap-graph step. -/
theorem mem_neighbours {all : List Transceiver} {i j : Nat} (h : j ∈ neighbours all i) :
    edgeOK all i j := by
  unfold neighbours at h
  rw [List.mem_filter] at h
  obtain ⟨hr, hd⟩ := h
  rw [List.mem_range] at hr
  simp only [decide_eq_true_eq] at hd
  exact ⟨hd.1, hd.2, hr⟩

/-- The initial generator state satisfies the invariant. -/
theorem GenInv.init (all : List Transceiver) (s : Nat) : GenInv all s [[s]] [s] := by
  refine ⟨?_, ?_, ?_, ?_, ?_, ?_, ?_, rfl⟩
  · intro r hmem
    rw [List.mem_singleton] at hmem
    subst hmem
    simp
  · intro r hmem
    rw [List.mem_singleton] at hmem
    subst hmem
    rfl
  · intro r hmem
    rw [List.mem_singleton] at hmem
    subst hmem
    exact List.chain'_singleton s
  · intro r hmem
    rw [List.mem_singleton] at hmem
    subst hmem
    exact List.nodup_singleton s
  · intro r hmem
    rw [List.mem_singleton] at hmem
    subst hmem
    exact fun x hx => hx
  · exact List.nodup_singleton s
  · intro x hx
    rw [List.mem_singleton] at hx
    exact Or.inl hx

/-- Extending a worklist route by a fresh neighbour preserves the invariant:
this is the `visited.append` / `routes.append` step of the generator. -/
theorem GenInv.extend {all : List Transceiver} {s : Nat} {routes : List Route}
    {visited : List Nat} (inv : GenInv all s routes visited)
    {route : Route} (hr : route ∈ routes) {t : Nat}
    (ht : edgeOK all (lastIdx route) t) (hnv : t ∉ visited) :
    GenInv all s (routes ++ [route ++ [t]]) (visited ++ [t]) := by
  have hne : route ≠ [] := inv.ne route hr
  constructor
  · intro r hmem
    rcases List.mem_append.mp hmem with h | h
    · exact inv.ne r h
    · rw [List.mem_singleton] at h
      subst h
      simp
  · intro r hmem
    rcases List.mem_append.mp hmem with h | h
    · exact inv.hd r h
    · rw [List.mem_singleton] at h
      subst h
      rw [headD_append route [t] hne]
      exact inv.hd route hr
  · intro r hmem
    rcases List.mem_append.mp hmem with h | h
    · exact inv.chain r h
    · rw [List.mem_singleton] at h
      subst h
      unfold chainOK
      rw [List.chain'_append]
      refine ⟨inv.chain route hr, List.chain'_singleton t, ?_⟩
      intro x hx y hy
      rw [getLast?_eq_lastIdx route hne, Option.mem_def, Option.some_inj] at hx
      rw [List.head?_cons, Option.mem_def, Option.some_inj] at hy
      subst hx
      subst hy
      exact ht
  · intro r hmem
    rcases List.mem_append.mp hmem with h | h
    · exact inv.nodup r h
    · rw [List.mem_singleton] at h
      subst h
      rw [List.nodup_append]
      refine ⟨inv.nodup route hr, List.nodup_singleton t, ?_⟩
      intro x hx hxt
      rw [List.mem_singleton] at hxt
      subst hxt
      exact hnv (inv.subv route hr x hx)
  · intro r hmem x hx
    rcases List.mem_append.mp hmem with h | h
    · exact List.mem_append.mpr (Or.inl (inv.subv r h x hx))
    · rw [List.mem_singleton] at h
      subst h
      rcases List.mem_append.mp hx with h2 | h2
      · exact List.mem_append.mpr (Or.inl (inv.subv route hr x h2))
      · exact List.mem_append.mpr (Or.inr h2)
  · rw [List.nodup_append]
    refine ⟨inv.vnodup, List.nodup_singleton t, ?_⟩
    intro x hx hxt
    rw [List.mem_singleton] at hxt
    subst hxt
    exact hnv hx
  · intro x hx
    rcases List.mem_append.mp hx with h | h
    · exact inv.vmem x h
    · rw [List.mem_singleton] at h
      subst h
      exact Or.inr ht.2.2
  · simp [inv.count]

/-- Master lemma of the traversal: on any successful run, the output worklist
is the input worklist followed by the yielded routes (in yield order), the
output visited list is the input visited list followed by the yielded
routes' last indices (in the same order), the invariant is preserved, and
every yielded route has at least two elements. -/
theorem master (all : List Transceiver) (s : Nat) : ∀ fuel : Nat,
    (∀ routes visited i r2 v2 ys,
      GenInv all s routes visited →
      genAux all fuel routes visited i = some (r2, v2, ys) →
      r2 = routes ++ ys ∧ v2 = visited ++ ys.map lastIdx ∧ GenInv all s r2 v2 ∧
        ∀ y ∈ ys, 2 ≤ y.length) ∧
    (∀ ns route routes visited r2 v2 ys,
      GenInv all s routes visited → route ∈ routes →
      (∀ t ∈ ns, edgeOK all (lastIdx route) t) →
      procNs all fuel ns route routes visited = some (r2, v2, ys) →
      r2 = routes ++ ys ∧ v2 = visited ++ ys.map lastIdx ∧ GenInv all s r2 v2 ∧
        ∀ y ∈ ys, 2 ≤ y.length) := by
  intro fuel
  induction fuel with
  | zero =>
    constructor
    · intro routes visited i r2 v2 ys _ h
      simp only [genAux] at h
      exact Option.noConfusion h
    · intro ns route routes visited r2 v2 ys _ _ _ h
      simp only [procNs] at h
      exact Option.noConfusion h
  | succ fuel ih =>
    obtain ⟨ihg, ihp⟩ := ih
    constructor
    · intro routes visited i r2 v2 ys inv h
      simp only [genAux] at h
      split at h
      · rename_i hi
        split at h
        · exact Option.noConfusion h
        · rename_i routes1 visited1 ys1 hp
          split at h
          · exact Option.noConfusion h
          · rename_i routes2 visited2 ys2 hg
            simp only [Option.some.injEq, Prod.mk.injEq] at h
            obtain ⟨h1, h2, h3⟩ := h
            subst h1
            subst h2
            subst h3
            have hroute : routes.getD i [] ∈ routes := by
              rw [List.getD_eq_getElem routes [] hi]
              exact List.getElem_mem hi
            obtain ⟨e1, e2, inv1, len1⟩ := ihp _ _ _ _ _ _ _ inv hroute
              (fun t ht => mem_neighbours ht) hp
            obtain ⟨f1, f2, inv2, len2⟩ := ihg _ _ _ _ _ _ inv1 hg
            subst e1
            subst e2
            subst f1
            subst f2
            refine ⟨by rw [List.append_assoc], by rw [List.map_append, List.append_assoc],
              inv2, ?_⟩
            intro y hy
            rcases List.mem_append.mp hy with hc | hc
            · exact len1 y hc
            · exact len2 y hc
      · simp only [Option.some.injEq, Prod.mk.injEq] at h
        obtain ⟨h1, h2, h3⟩ := h
        subst h1
        subst h2
        subst h3
        exact ⟨by simp, by simp, inv, by intro y hy; simp at hy⟩
    · intro ns route routes visited r2 v2 ys inv hroute hns h
      cases ns with
      | nil =>
        simp only [procNs, Option.some.injEq, Prod.mk.injEq] at h
        obtain ⟨h1, h2, h3⟩ := h
        subst h1
        subst h2
        subst h3
        exact ⟨by simp, by simp, inv, by intro y hy; simp at hy⟩
      | cons t ns =>
        simp only [procNs] at h
        split at h
        · rename_i htv
          exact ihp _ _ _ _ _ _ _ inv hroute
            (fun u hu => hns u (List.mem_cons_of_mem t hu)) h
        · rename_i htv
          have hedge : edgeOK all (lastIdx route) t := hns t (List.mem_cons_self t ns)
          have invx : GenInv all s (routes ++ [route ++ [t]]) (visited ++ [t]) :=
            inv.extend hroute hedge htv
          split at h
          · exact Option.noConfusion h
          · rename_i routes1 visited1 ys1 hg
            split at h
            · exact Option.noConfusion h
            · rename_i routes2 visited2 ys2 hp
              simp only [Option.some.injEq, Prod.mk.injEq] at h
              obtain ⟨h1, h2, h3⟩ := h
              subst h1
              subst h2
              subst h3
              obtain ⟨e1, e2, inv1, len1⟩ := ihg _ _ _ _ _ _ invx hg
              have hroute1 : route ∈ routes1 := by
                subst e1
                exact List.mem_append.mpr (Or.inl (List.mem_append.mpr (Or.inl hroute)))
              obtain ⟨f1, f2, inv2, len2⟩ := ihp _ _ _ _ _ _ _ inv1 hroute1
                (fun u hu => hns u (List.mem_cons_of_mem t hu)) hp
              subst f1
              subst f2
              subst e1
              subst e2
              refine ⟨by simp, by simp [lastIdx_concat], inv2, ?_⟩
              intro y hy
              rcases List.mem_cons.mp hy with hc | hc
              · subst hc
                have hne : route ≠ [] := inv.ne route hroute
                have hlen : 1 ≤ route.length := by
                  cases route with
                  | nil => exact absurd rfl hne
                  | cons a l => simp
                rw [List.length_append, List.length_singleton]
                omega
              · rcases List.mem_append.mp hc with hc2 | hc2
                · exact len1 y hc2
                · exact len2 y hc2

/-- A `neighbours` list is no longer than the registry. -/
theorem neighbours_length_le (all : List Transceiver) (i : Nat) :
    (neighbours all i).length ≤ all.length := by
  unfold neighbours
  exact le_trans (List.length_filter_le _ _) (le_of_eq (List.length_range _))

/-- The visited list never exceeds the registry size plus one (for the
start index, which need not be a valid registry index in general). -/
theorem GenInv.visited_le {all : List Transceiver} {s : Nat} {routes : List Route}
    {visited : List Nat} (inv : GenInv all s routes visited) :
    visited.length ≤ all.length + 1 := by
  have hsub : ∀ x ∈ visited, x ∈ s :: List.range all.length := by
    intro x hx
    rcases inv.vmem x hx with h | h
    · exact List.mem_cons.mpr (Or.inl h)
    · exact List.mem_cons.mpr (Or.inr (List.mem_range.mpr h))
  have h := nodup_length_le inv.vnodup hsub
  simpa using h

/-- Termination of the traversal: from any state satisfying the invariant,
enough fuel (measured by how far the visited list is from saturation, plus
the work remaining in the current loops) makes both loops complete. -/
theorem fuel_sufficient (all : List Transceiver) (s : Nat) : ∀ fuel : Nat,
    (∀ routes visited i,
      GenInv all s routes visited →
      (2 * all.length + 6) * (all.length + 1 - visited.length) + (routes.length - i) +
        all.length + 3 ≤ fuel →
      ∃ out, genAux all fuel routes visited i = some out) ∧
    (∀ ns route routes visited,
      GenInv all s routes visited → route ∈ routes →
      (∀ t ∈ ns, edgeOK all (lastIdx route) t) →
      (2 * all.length + 6) * (all.length + 1 - visited.length) + ns.length + 1 ≤ fuel →
      ∃ out, procNs all fuel ns route routes visited = some out) := by
  intro fuel
  induction fuel with
  | zero =>
    constructor
    · intro routes visited i _ hfuel
      exact absurd hfuel (by omega)
    · intro ns route routes visited _ _ _ hfuel
      exact absurd hfuel (by omega)
  | succ fuel ih =>
    obtain ⟨ihg, ihp⟩ := ih
    constructor
    · intro routes visited i inv hfuel
      by_cases hi : i < routes.length
      · have hroute : routes.getD i [] ∈ routes := by
          rw [List.getD_eq_getElem routes [] hi]
          exact List.getElem_mem hi
        have hns : ∀ t ∈ neighbours all (lastIdx (routes.getD i [])),
            edgeOK all (lastIdx (routes.getD i [])) t := fun t ht => mem_neighbours ht
        obtain ⟨out1, hp⟩ := ihp (neighbours all (lastIdx (routes.getD i [])))
          (routes.getD i []) routes visited inv hroute hns (by
            have hn1 := neighbours_length_le all (lastIdx (routes.getD i []))
            omega)
        obtain ⟨routes1, visited1, ys1⟩ := out1
        obtain ⟨e1, e2, inv1, _⟩ := (master all s fuel).2 _ _ _ _ _ _ _ inv hroute hns hp
        obtain ⟨out2, hg⟩ := ihg routes1 visited1 (i + 1) inv1 (by
          have hv1 : visited1.length ≤ all.length + 1 := inv1.visited_le
          have hc1 : routes1.length = visited1.length := inv1.count
          cases ys1 with
          | nil =>
            have hr1 : routes1 = routes := by simp [e1]
            have hv1 : visited1 = visited := by simp [e2]
            rw [hr1, hv1]
            omega
          | cons y ytl =>
            have hglen : visited.length + 1 ≤ visited1.length := by
              subst e2
              simp
            have hvle : visited.length ≤ all.length := by omega
            have hsplit : (2 * all.length + 6) * (all.length + 1 - visited.length) =
                (2 * all.length + 6) * (all.length - visited.length) + (2 * all.length + 6) := by
              rw [show all.length + 1 - visited.length = (all.length - visited.length) + 1 by
                omega, Nat.mul_succ]
            have hbridge : (2 * all.length + 6) * (all.length + 1 - visited1.length) ≤
                (2 * all.length + 6) * (all.length - visited.length) :=
              Nat.mul_le_mul_left _ (by omega)
            omega)
        obtain ⟨routes2, visited2, ys2⟩ := out2
        refine ⟨(routes2, visited2, ys1 ++ ys2), ?_⟩
        simp only [genAux]
        rw [if_pos hi]
        simp only [hp, hg]
      · refine ⟨(routes, visited, []), ?_⟩
        simp only [genAux]
        rw [if_neg hi]
    · intro ns route routes visited inv hroute hns hfuel
      cases ns with
      | nil =>
        refine ⟨(routes, visited, []), ?_⟩
        simp only [procNs]
      | cons t ns =>
        by_cases htv : t ∈ visited
        · obtain ⟨out, hout⟩ := ihp ns route routes visited inv hroute
            (fun u hu => hns u (List.mem_cons_of_mem t hu)) (by
              simp only [List.length_cons] at hfuel
              omega)
          refine ⟨out, ?_⟩
          simp only [procNs]
          rw [if_pos htv]
          exact hout
        · have hedge : edgeOK all (lastIdx route) t := hns t (List.mem_cons_self t ns)
          have invx : GenInv all s (routes ++ [route ++ [t]]) (visited ++ [t]) :=
            inv.extend hroute hedge htv
          have hvx : visited.length ≤ all.length := by
            have h1 : (visited ++ [t]).length ≤ all.length + 1 := invx.visited_le
            simp only [List.length_append, List.length_singleton] at h1
            omega
          have hcount : routes.length = visited.length := inv.count
          have hsplit : (2 * all.length + 6) * (all.length + 1 - visited.length) =
              (2 * all.length + 6) * (all.length - visited.length) + (2 * all.length + 6) := by
            rw [show all.length + 1 - visited.length = (all.length - visited.length) + 1 by
              omega, Nat.mul_succ]
          obtain ⟨out1, hg⟩ := ihg (routes ++ [route ++ [t]]) (visited ++ [t]) 0 invx (by
            simp only [List.length_append, List.length_singleton, List.length_cons,
              List.length_nil, Nat.zero_add, Nat.add_zero, Nat.sub_zero] at hfuel ⊢
            have hbridge : (2 * all.length + 6) * (all.length + 1 - (visited.length + 1)) ≤
                (2 * all.length + 6) * (all.length - visited.length) :=
              Nat.mul_le_mul_left _ (by omega)
            omega)
          obtain ⟨routes1, visited1, ys1⟩ := out1
          obtain ⟨e1, e2, inv1, _⟩ := (master all s fuel).1 _ _ _ _ _ _ invx hg
          have hroute1 : route ∈ routes1 := by
            subst e1
            exact List.mem_append.mpr (Or.inl (List.mem_append.mpr (Or.inl hroute)))
          obtain ⟨out2, hp⟩ := ihp ns route routes1 visited1 inv1 hroute1
            (fun u hu => hns u (List.mem_cons_of_mem t hu)) (by
              have hglen : visited.length + 1 ≤ visited1.length := by
                subst e2
                simp
              have hbridge : (2 * all.length + 6) * (all.length + 1 - visited1.length) ≤
                  (2 * all.length + 6) * (all.length - visited.length) :=
                Nat.mul_le_mul_left _ (by omega)
              simp only [List.length_cons] at hfuel
              omega)
          obtain ⟨routes2, visited2, ys2⟩ := out2
          refine ⟨(routes2, visited2, (route ++ [t]) :: (ys1 ++ ys2)), ?_⟩
          simp only [procNs]
          rw [if_neg htv]
          simp only [hg, hp]

/-- One-step unfolding of `genAux` at positive fuel. -/
theorem genAux_succ (all : List Transceiver) (fuel : Nat) (routes : List Route)
    (visited : List Nat) (i : Nat) :
    genAux all (fuel + 1) routes visited i =
      if i < routes.length then
        match procNs all fuel (neighbours all (lastIdx (routes.getD i [])))
            (routes.getD i []) routes visited with
        | none => none
        | some (routes1, visited1, ys1) =>
          match genAux all fuel routes1 visited1 (i + 1) with
          | none => none
          | some (routes2, visited2, ys2) => some (routes2, visited2, ys1 ++ ys2)
      else
        some (routes, visited, []) := by
  simp only [genAux]

/-- One-step unfolding of `procNs` on an empty neighbour list. -/
theorem procNs_succ_nil (all : List Transceiver) (fuel : Nat) (route : Route)
    (routes : List Route) (visited : List Nat) :
    procNs all (fuel + 1) [] route routes visited = some (routes, visited, []) := by
  simp only [procNs]

/-- One-step unfolding of `procNs` on a non-empty neighbour list. -/
theorem procNs_succ_cons (all : List Transceiver) (fuel : Nat) (t : Nat) (ns : List Nat)
    (route : Route) (routes : List Route) (visited : List Nat) :
    procNs all (fuel + 1) (t :: ns) route routes visited =
      if t ∈ visited then
        procNs all fuel ns route routes visited
      else
        match genAux all fuel (routes ++ [route ++ [t]]) (visited ++ [t]) 0 with
        | none => none
        | some (routes1, visited1, ys1) =>
          match procNs all fuel ns route routes1 visited1 with
          | none => none
          | some (routes2, visited2, ys2) =>
            some (routes2, visited2, (route ++ [t]) :: (ys1 ++ ys2)) := by
  simp only [procNs]

/-- More fuel never changes a completed run. -/
theorem fuel_mono (all : List Transceiver) : ∀ fuel : Nat,
    (∀ routes visited i out, genAux all fuel routes visited i = some out →
      genAux all (fuel + 1) routes visited i = some out) ∧
    (∀ ns route routes visited out, procNs all fuel ns route routes visited = some out →
      procNs all (fuel + 1) ns route routes visited = some out) := by
  intro fuel
  induction fuel with
  | zero =>
    constructor
    · intro routes visited i out h
      simp only [genAux] at h
      exact Option.noConfusion h
    · intro ns route routes visited out h
      simp only [procNs] at h
      exact Option.noConfusion h
  | succ fuel ih =>
    obtain ⟨ihg, ihp⟩ := ih
    constructor
    · intro routes visited i out h
      rw [genAux_succ] at h
      rw [genAux_succ]
      split at h
      · rename_i hi
        rw [if_pos hi]
        split at h
        · exact Option.noConfusion h
        · rename_i routes1 visited1 ys1 hp
          simp only [ihp _ _ _ _ _ hp]
          split at h
          · exact Option.noConfusion h
          · rename_i routes2 visited2 ys2 hg
            simp only [ihg _ _ _ _ hg]
            exact h
      · rename_i hi
        rw [if_neg hi]
        exact h
    · intro ns route routes visited out h
      cases ns with
      | nil =>
        rw [procNs_succ_nil] at h
        rw [procNs_succ_nil]
        exact h
      | cons t ns =>
        rw [procNs_succ_cons] at h
        rw [procNs_succ_cons]
        split at h
        · rename_i htv
          rw [if_pos htv]
          exact ihp _ _ _ _ _ h
        · rename_i htv
          rw [if_neg htv]
          split at h
          · exact Option.noConfusion h
          · rename_i routes1 visited1 ys1 hg
            simp only [ihg _ _ _ _ hg]
            split at h
            · exact Option.noConfusion h
            · rename_i routes2 visited2 ys2 hp
              simp only [ihp _ _ _ _ _ hp]
              exact h

/-- More fuel, stated for an arbitrary surplus. -/
theorem genAux_mono_add (all : List Transceiver) (fuel extra : Nat)
    (routes : List Route) (visited : List Nat) (i : Nat)
    (out : List Route × List Nat × List Route)
    (h : genAux all fuel routes visited i = some out) :
    genAux all (fuel + extra) routes visited i = some out := by
  induction extra with
  | zero => exact h
  | succ extra ih => exact (fuel_mono all (fuel + extra)).1 _ _ _ _ ih

/-- The canonical generator run completes within `fuel0`, and its outputs
are described by the master lemma: the final worklist is the initial
one-element route followed by the yields, and the final visited list is the
start index followed by the yields' last indices. -/
theorem genRun (all : List Transceiver) (s : Nat) :
    ∃ r v ys, genAux all (fuel0 all) [[s]] [s] 0 = some (r, v, ys) ∧
      generate_possible_routes all s = ys ∧
      r = [[s]] ++ ys ∧ v = [s] ++ ys.map lastIdx ∧ GenInv all s r v ∧
      ∀ y ∈ ys, 2 ≤ y.length := by
  obtain ⟨out, hout⟩ := (fuel_sufficient all s (fuel0 all)).1 [[s]] [s] 0 (GenInv.init all s)
    (by
      unfold fuel0
      simp only [List.length_singleton, List.length_cons, List.length_nil,
        Nat.zero_add, Nat.add_sub_cancel, Nat.sub_zero]
      omega)
  obtain ⟨r, v, ys⟩ := out
  obtain ⟨e1, e2, inv, hlen⟩ := (master all s (fuel0 all)).1 _ _ _ _ _ _ (GenInv.init all s) hout
  refine ⟨r, v, ys, hout, ?_, e1, e2, inv, hlen⟩
  unfold generate_possible_routes
  rw [hout]

/-- Everything the invariant says about a single yielded route. -/
theorem mem_yields_spec {all : List Transceiver} {s : Nat} {r : Route}
    (h : r ∈ generate_possible_routes all s) :
    chainOK all r ∧ r.headD 0 = s ∧ r.Nodup ∧ 2 ≤ r.length ∧
      ∀ x ∈ r, x = s ∨ x < all.length := by
  obtain ⟨r2, v2, ys, _, hgen, he1, _, inv, hlen⟩ := genRun all s
  rw [hgen] at h
  have hmem : r ∈ r2 := by
    rw [he1]
    exact List.mem_append.mpr (Or.inr h)
  refine ⟨inv.chain r hmem, inv.hd r hmem, inv.nodup r hmem, hlen r h, ?_⟩
  intro x hx
  exact inv.vmem x (inv.subv r hmem x hx)

/-- Inversion of the outer candidate loop of `find_route`. -/
theorem firstRoute_some {all : List Transceiver} {pb : Point} :
    ∀ {l : List Nat} {r : Route}, firstRoute all pb l = some r →
      ∃ s ∈ l, searchCoversB all pb s = some r := by
  intro l
  induction l with
  | nil =>
    intro r h
    simp only [firstRoute] at h
    exact Option.noConfusion h
  | cons a tl ih =>
    intro r h
    simp only [firstRoute] at h
    split at h
    · rename_i r1 hs
      obtain rfl : r1 = r := Option.some.inj h
      exact ⟨a, List.mem_cons_self a tl, hs⟩
    · rename_i hs
      obtain ⟨s, hsmem, hsearch⟩ := ih h
      exact ⟨s, List.mem_cons_of_mem a hsmem, hsearch⟩

/-- Inversion of a successful fresh-registry `find_route` call: some start
index is a valid input transceiver covering point A, the returned route was
yielded by the traversal started there, and its last transceiver covers
point B. -/
theorem find_route_some_spec {data : Dataset} {r : Route}
    (h : (find_route [] data).1 = some r) :
    ∃ s, s < data.transceivers.length ∧
      (nth data.transceivers s).covers_point data.A ∧
      r ∈ generate_possible_routes data.transceivers s ∧
      (nth data.transceivers (lastIdx r)).covers_point data.B := by
  simp only [find_route, List.nil_append, List.length_nil] at h
  obtain ⟨s, hsmem, hsearch⟩ := firstRoute_some h
  rw [List.mem_filter] at hsmem
  obtain ⟨hrange, hcov⟩ := hsmem
  rw [List.mem_range'_1] at hrange
  simp only [decide_eq_true_eq] at hcov
  unfold searchCoversB at hsearch
  have hmem := List.mem_of_find?_eq_some hsearch
  have hpred := List.find?_some hsearch
  simp only [decide_eq_true_eq] at hpred
  exact ⟨s, by omega, hcov, hmem, hpred⟩

/-- A non-empty overlap chain connects its first index to its last. -/
theorem chainOK_reaches (all : List Transceiver) :
    ∀ r : Route, chainOK all r → r ≠ [] → Reaches all (r.headD 0) (lastIdx r) := by
  intro r
  induction r with
  | nil =>
    intro _ h
    exact absurd rfl h
  | cons a tl ih =>
    intro hchain _
    cases tl with
    | nil => exact Relation.ReflTransGen.refl
    | cons b tl2 =>
      rw [chainOK, List.chain'_cons] at hchain
      have ih2 := ih hchain.2 (by simp)
      have hl : lastIdx (a :: b :: tl2) = lastIdx (b :: tl2) := by
        unfold lastIdx
        rw [List.getLastD_cons, List.getLastD_eq_getLast? a, List.getLastD_eq_getLast? 0,
          List.getLast?_eq_getLast (b :: tl2) (by simp)]
        rfl
      rw [show (a :: b :: tl2).headD 0 = a from rfl, hl]
      exact Relation.ReflTransGen.head hchain.1 ih2

/-- The last index of a non-empty route is one of its members. -/
theorem lastIdx_mem (r : Route) (h : r ≠ []) : lastIdx r ∈ r := by
  have hl := getLast?_eq_lastIdx r h
  rw [List.getLast?_eq_getLast r h, Option.some_inj] at hl
  rw [← hl]
  exact List.getLast_mem h

/-- Claim C1: whatever route a fresh `find_route` call returns is a chain of
pairwise neighbours whose first transceiver covers point A and whose last
covers point B, with no transceiver repeated. -/
theorem find_route_route_valid (data : Dataset) (r : Route)
    (h : (find_route [] data).1 = some r) :
    List.Chain' (fun a b =>
      (nth data.transceivers a).is_neighbour (nth data.transceivers b)) r ∧
    (nth data.transceivers (r.headD 0)).covers_point data.A ∧
    (nth data.transceivers (lastIdx r)).covers_point data.B ∧
    r.Nodup := by
  obtain ⟨s, hs, hA, hmem, hB⟩ := find_route_some_spec h
  obtain ⟨hchain, hhd, hnodup, hlen, hval⟩ := mem_yields_spec hmem
  refine ⟨List.Chain'.imp (fun a b hab => hab.1) hchain, ?_, hB, hnodup⟩
  rw [hhd]
  exact hA

/-- Claim C3: the traversal started at any transceiver terminates: the
canonical fuel completes, any surplus fuel returns the same final state and
the same finite yield list, and no transceiver is ever visited twice. -/
theorem generate_possible_routes_terminates (all : List Transceiver) (s : Nat) :
    ∃ r v ys,
      (∀ extra : Nat, genAux all (fuel0 all + extra) [[s]] [s] 0 = some (r, v, ys)) ∧
      generate_possible_routes all s = ys ∧ v.Nodup := by
  obtain ⟨r, v, ys, hout, hgen, _, _, inv, _⟩ := genRun all s
  exact ⟨r, v, ys, fun extra => genAux_mono_add all (fuel0 all) extra _ _ _ _ hout,
    hgen, inv.vnodup⟩

/-- Claim C4: when the transceivers covering A and those covering B lie in
disjoint connected components of the overlap graph (no A-coverer reaches a
B-coverer), a fresh `find_route` call returns absence. -/
theorem find_route_none_of_disconnected (data : Dataset)
    (h : ∀ i j, i < data.transceivers.length → j < data.transceivers.length →
      (nth data.transceivers i).covers_point data.A →
      (nth data.transceivers j).covers_point data.B →
      ¬ Reaches data.transceivers i j) :
    (find_route [] data).1 = none := by
  cases hfr : (find_route [] data).1 with
  | none => rfl
  | some r =>
    exfalso
    obtain ⟨s, hs, hA, hmem, hB⟩ := find_route_some_spec hfr
    obtain ⟨hchain, hhd, _, hlen, hval⟩ := mem_yields_spec hmem
    have hne : r ≠ [] := by
      cases r with
      | nil => simp at hlen
      | cons a tl => simp
    have hreach : Reaches data.transceivers (r.headD 0) (lastIdx r) :=
      chainOK_reaches data.transceivers r hchain hne
    rw [hhd] at hreach
    have hlast : lastIdx r < data.transceivers.length := by
      rcases hval (lastIdx r) (lastIdx_mem r hne) with hc | hc
      · omega
      · exact hc
    exact h s (lastIdx r) hs hlast (by rw [← hhd]; exact (hhd ▸ hA)) hB hreach

/-- Claim C9: every yielded route has at least two elements; the initial
one-element route sits in the final worklist but is never yielded. -/
theorem yields_length_ge_two (all : List Transceiver) (s : Nat) :
    (∀ y ∈ generate_possible_routes all s, 2 ≤ y.length) ∧
    [s] ∉ generate_possible_routes all s ∧
    (∃ r v, genAux all (fuel0 all) [[s]] [s] 0 =
        some (r, v, generate_possible_routes all s) ∧ [s] ∈ r) := by
  refine ⟨?_, ?_, ?_⟩
  · intro y hy
    exact (mem_yields_spec hy).2.2.2.1
  · intro hmem
    have h2 := (mem_yields_spec hmem).2.2.2.1
    simp at h2
  · obtain ⟨r, v, ys, hout, hgen, he1, _, _, _⟩ := genRun all s
    refine ⟨r, v, by rw [hgen]; exact hout, ?_⟩
    rw [he1]
    exact List.mem_append.mpr (Or.inl (List.mem_singleton.mpr rfl))

/-- Claim C10: within one traversal the shared visited list makes every
non-start transceiver the last element of at most one yielded route, the
start is never a yielded route's last element, and at most
`all.length - 1` routes are yielded in total. -/
theorem yields_lasts_nodup_and_bound (all : List Transceiver) (s : Nat)
    (hs : s < all.length) :
    ((generate_possible_routes all s).map lastIdx).Nodup ∧
    s ∉ (generate_possible_routes all s).map lastIdx ∧
    (generate_possible_routes all s).length ≤ all.length - 1 := by
  obtain ⟨r, v, ys, hout, hgen, he1, he2, inv, hlen⟩ := genRun all s
  rw [hgen]
  have hv := inv.vnodup
  rw [he2] at hv
  simp only [List.singleton_append] at hv
  rw [List.nodup_cons] at hv
  obtain ⟨hs2, hnodup⟩ := hv
  have hsub : ∀ x ∈ v, x ∈ List.range all.length := by
    intro x hx
    rcases inv.vmem x hx with hc | hc
    · exact List.mem_range.mpr (by omega)
    · exact List.mem_range.mpr hc
  have hvlen : v.length ≤ all.length := by
    have h2 := nodup_length_le inv.vnodup hsub
    simpa using h2
  rw [he2] at hvlen
  simp only [List.singleton_append, List.length_cons, List.length_map] at hvlen
  exact ⟨hnodup, hs2, by omega⟩

/-! ## Concrete scenarios

Transceivers of power `100π` have range exactly `5`.  `tA` sits at the
origin, `tB` at `(9, 0)` (distance 9, neighbours since `9 ≤ 5 + 5`), and
`tFar` at `(50, 0)` (distance 50, not a neighbour of `tA`). -/

noncomputable def tA : Transceiver := ⟨⟨0, 0⟩, 100 * Real.pi⟩

noncomputable def tB : Transceiver := ⟨⟨9, 0⟩, 100 * Real.pi⟩

noncomputable def tFar : Transceiver := ⟨⟨50, 0⟩, 100 * Real.pi⟩

/-- Scenario of the spec: two neighbouring transceivers, A under the first,
B under the second. -/
noncomputable def D1 : Dataset := ⟨[tA, tB], ⟨0, 0⟩, ⟨9, 0⟩⟩

/-- Disconnected scenario: the only A-coverer cannot reach the only
B-coverer. -/
noncomputable def D4 : Dataset := ⟨[tA, tFar], ⟨0, 0⟩, ⟨50, 0⟩⟩

/-- Single-transceiver scenario: `tA` covers both A and B. -/
noncomputable def D5 : Dataset := ⟨[tA], ⟨0, 0⟩, ⟨3, 0⟩⟩

theorem range_tA : tA.range = 5 := by
  refine range_eq_of_sq _ 5 (by norm_num) ?_
  show (100 : ℝ) * Real.pi = _
  ring

theorem range_tB : tB.range = 5 := by
  refine range_eq_of_sq _ 5 (by norm_num) ?_
  show (100 : ℝ) * Real.pi = _
  ring

theorem range_tFar : tFar.range = 5 := by
  refine range_eq_of_sq _ 5 (by norm_num) ?_
  show (100 : ℝ) * Real.pi = _
  ring

theorem cov_tA_00 : tA.covers_point ⟨0, 0⟩ := by
  unfold Transceiver.covers_point
  rw [range_tA]
  show ((0 : ℝ) - 0) ^ 2 + ((0 : ℝ) - 0) ^ 2 ≤ _
  norm_num

theorem cov_tA_30 : tA.covers_point ⟨3, 0⟩ := by
  unfold Transceiver.covers_point
  rw [range_tA]
  show ((3 : ℝ) - 0) ^ 2 + ((0 : ℝ) - 0) ^ 2 ≤ _
  norm_num

theorem ncov_tA_90 : ¬ tA.covers_point ⟨9, 0⟩ := by
  unfold Transceiver.covers_point
  rw [range_tA]
  show ¬ (((9 : ℝ) - 0) ^ 2 + ((0 : ℝ) - 0) ^ 2 ≤ _)
  norm_num

theorem cov_tB_90 : tB.covers_point ⟨9, 0⟩ := by
  unfold Transceiver.covers_point
  rw [range_tB]
  show ((9 : ℝ) - 9) ^ 2 + ((0 : ℝ) - 0) ^ 2 ≤ _
  norm_num

theorem ncov_tB_00 : ¬ tB.covers_point ⟨0, 0⟩ := by
  unfold Transceiver.covers_point
  rw [range_tB]
  show ¬ (((0 : ℝ) - 9) ^ 2 + ((0 : ℝ) - 0) ^ 2 ≤ _)
  norm_num

theorem ncov_tA_500 : ¬ tA.covers_point ⟨50, 0⟩ := by
  unfold Transceiver.covers_point
  rw [range_tA]
  show ¬ (((50 : ℝ) - 0) ^ 2 + ((0 : ℝ) - 0) ^ 2 ≤ _)
  norm_num

theorem cov_tFar_500 : tFar.covers_point ⟨50, 0⟩ := by
  unfold Transceiver.covers_point
  rw [range_tFar]
  show ((50 : ℝ) - 50) ^ 2 + ((0 : ℝ) - 0) ^ 2 ≤ _
  norm_num

theorem ncov_tFar_00 : ¬ tFar.covers_point ⟨0, 0⟩ := by
  unfold Transceiver.covers_point
  rw [range_tFar]
  show ¬ (((0 : ℝ) - 50) ^ 2 + ((0 : ℝ) - 0) ^ 2 ≤ _)
  norm_num

theorem nb_tA_tB : tA.is_neighbour tB := by
  unfold Transceiver.is_neighbour
  rw [range_tA, range_tB]
  show ((9 : ℝ) - 0) ^ 2 + ((0 : ℝ) - 0) ^ 2 ≤ _
  norm_num

theorem nb_tB_tA : tB.is_neighbour tA := by
  unfold Transceiver.is_neighbour
  rw [range_tA, range_tB]
  show ((0 : ℝ) - 9) ^ 2 + ((0 : ℝ) - 0) ^ 2 ≤ _
  norm_num

theorem nb_tA_tA : tA.is_neighbour tA := by
  unfold Transceiver.is_neighbour
  rw [range_tA]
  show ((0 : ℝ) - 0) ^ 2 + ((0 : ℝ) - 0) ^ 2 ≤ _
  norm_num

theorem nnb_tA_tFar : ¬ tA.is_neighbour tFar := by
  unfold Transceiver.is_neighbour
  rw [range_tA, range_tFar]
  show ¬ (((50 : ℝ) - 0) ^ 2 + ((0 : ℝ) - 0) ^ 2 ≤ _)
  norm_num

theorem nbrs_D1_0 : neighbours [tA, tB] 0 = [1] := by
  unfold neighbours
  rw [show List.range (List.length [tA, tB]) = [0, 1] from rfl]
  simp [List.filter_cons, nth, nb_tA_tB]

theorem nbrs_D1_1 : neighbours [tA, tB] 1 = [0] := by
  unfold neighbours
  rw [show List.range (List.length [tA, tB]) = [0, 1] from rfl]
  simp [List.filter_cons, nth, nb_tB_tA]

theorem nbrs_D4_0 : neighbours [tA, tFar] 0 = [] := by
  unfold neighbours
  rw [show List.range (List.length [tA, tFar]) = [0, 1] from rfl]
  simp [List.filter_cons, nth, nnb_tA_tFar]

theorem nbrs_D5_0 : neighbours [tA] 0 = [] := by
  unfold neighbours
  rw [show List.range (List.length [tA]) = [0] from rfl]
  simp [List.filter_cons, nth]

theorem nbrs_D5b_0 : neighbours [tA, tA] 0 = [1] := by
  unfold neighbours
  rw [show List.range (List.length [tA, tA]) = [0, 1] from rfl]
  simp [List.filter_cons, nth, nb_tA_tA]

theorem nbrs_D5b_1 : neighbours [tA, tA] 1 = [0] := by
  unfold neighbours
  rw [show List.range (List.length [tA, tA]) = [0, 1] from rfl]
  simp [List.filter_cons, nth, nb_tA_tA]

theorem gen_D1_eval : generate_possible_routes [tA, tB] 0 = [[0, 1]] := by
  unfold generate_possible_routes
  rw [show fuel0 [tA, tB] = 26 from by norm_num [fuel0]]
  simp [genAux, procNs, nbrs_D1_0, nbrs_D1_1, lastIdx]

theorem gen_D4_eval : generate_possible_routes [tA, tFar] 0 = [] := by
  unfold generate_possible_routes
  rw [show fuel0 [tA, tFar] = 26 from by norm_num [fuel0]]
  simp [genAux, procNs, nbrs_D4_0, lastIdx]

theorem gen_D5_eval : generate_possible_routes [tA] 0 = [] := by
  unfold generate_possible_routes
  rw [show fuel0 [tA] = 13 from by norm_num [fuel0]]
  simp [genAux, procNs, nbrs_D5_0, lastIdx]

theorem gen_D5b_eval : generate_possible_routes [tA, tA] 1 = [[1, 0]] := by
  unfold generate_possible_routes
  rw [show fuel0 [tA, tA] = 26 from by norm_num [fuel0]]
  simp [genAux, procNs, nbrs_D5b_0, nbrs_D5b_1, lastIdx]

theorem find_D1 : find_route [] D1 = (some [0, 1], [tA, tB]) := by
  simp [find_route, D1, firstRoute, searchCoversB, gen_D1_eval, nth,
    cov_tA_00, ncov_tB_00, cov_tB_90, List.filter_cons, List.find?_cons,
    show List.range' 0 2 = [0, 1] from rfl,
    show lastIdx [0, 1] = 1 from rfl]

theorem find_D4 : find_route [] D4 = (none, [tA, tFar]) := by
  simp [find_route, D4, firstRoute, searchCoversB, gen_D4_eval, nth,
    cov_tA_00, ncov_tFar_00, List.filter_cons,
    show List.range' 0 2 = [0, 1] from rfl]

theorem find_D5 : find_route [] D5 = (none, [tA]) := by
  simp [find_route, D5, firstRoute, searchCoversB, gen_D5_eval, nth,
    cov_tA_00, List.filter_cons,
    show List.range' 0 (List.length [tA]) = [0] from rfl]

theorem find_D5_second : find_route [tA] D5 = (some [1, 0], [tA, tA]) := by
  simp [find_route, D5, firstRoute, searchCoversB, gen_D5b_eval, nth,
    cov_tA_00, cov_tA_30, List.filter_cons, List.find?_cons,
    show List.range' (List.length [tA]) (List.length [tA]) = [1] from rfl,
    show lastIdx [1, 0] = 0 from rfl]

/-- Claim C2 (failing input): in dataset `D5` the single transceiver covers
both query points, yet `find_route` returns absence — the generator never
yields the one-element route `[start]`, so the orchestrator never checks
whether the start transceiver itself covers point B. -/
theorem find_route_misses_single_transceiver_route :
    D5.transceivers = [tA] ∧ tA.covers_point D5.A ∧ tA.covers_point D5.B ∧
    (find_route [] D5).1 = none := by
  refine ⟨rfl, cov_tA_00, cov_tA_30, ?_⟩
  rw [find_D5]

/-- Claim C5 (counterexample): `find_route` grows the process-wide registry,
and a second call on the very same dataset returns a different result — the
first call returns absence while the second finds the route `[1, 0]`
through the first call's leftover registry entry. -/
theorem find_route_mutates_registry_cex :
    (find_route [] D5).1 = none ∧
    (find_route ((find_route [] D5).2) D5).1 = some [1, 0] ∧
    (find_route [] D5).2 ≠ [] := by
  rw [find_D5]
  refine ⟨rfl, ?_, by simp⟩
  show (find_route [tA] D5).1 = some [1, 0]
  rw [find_D5_second]

/-- Claim C5 (amended): `find_route` leaves the prior registry entries
unchanged and only appends the transceivers it constructs, but it does
mutate that process-wide state, and two calls on equal data can return
different results. -/
theorem find_route_registry_frame :
    (∀ registry data, (find_route registry data).2 = registry ++ data.transceivers) ∧
    (∃ data, (find_route [] data).1 ≠ (find_route ((find_route [] data).2) data).1) := by
  refine ⟨fun registry data => rfl, ⟨D5, ?_⟩⟩
  rw [find_D5]
  show none ≠ (find_route [tA] D5).1
  rw [find_D5_second]
  simp

/-- Witness for C1 on the two-transceiver scenario: the returned route
`[0, 1]` is a neighbour chain from an A-coverer to a B-coverer without
repeats. -/
theorem find_route_route_valid_witness :
    (find_route [] D1).1 = some [0, 1] ∧
    (List.Chain' (fun a b =>
      (nth D1.transceivers a).is_neighbour (nth D1.transceivers b)) [0, 1] ∧
    (nth D1.transceivers (([0, 1] : Route).headD 0)).covers_point D1.A ∧
    (nth D1.transceivers (lastIdx [0, 1])).covers_point D1.B ∧
    ([0, 1] : Route).Nodup) := by
  have h : (find_route [] D1).1 = some [0, 1] := by rw [find_D1]
  exact ⟨h, find_route_route_valid D1 [0, 1] h⟩

/-- In `D4` the overlap graph has no edge out of index 0. -/
theorem not_reaches_D4 : ¬ Reaches [tA, tFar] 0 1 := by
  intro h
  rcases Relation.ReflTransGen.cases_head h with hc | ⟨c, hedge, _⟩
  · exact absurd hc (by norm_num)
  · obtain ⟨hn, hne, hlt⟩ := hedge
    have hc1 : c = 1 := by
      simp only [List.length_cons, List.length_nil] at hlt
      omega
    subst hc1
    exact nnb_tA_tFar (by simpa [nth] using hn)

/-- Witness for C4 on the disconnected scenario `D4`. -/
theorem find_route_none_of_disconnected_witness :
    (find_route [] D4).1 = none := by
  refine find_route_none_of_disconnected D4 ?_
  intro i j hi hj hA hB
  simp only [D4, List.length_cons, List.length_nil] at hi hj
  have hi2 : i = 0 ∨ i = 1 := by omega
  have hj2 : j = 0 ∨ j = 1 := by omega
  rcases hi2 with hc | hc
  · subst hc
    rcases hj2 with hd | hd
    · subst hd
      exact absurd (by simpa [D4, nth] using hB) ncov_tA_500
    · subst hd
      exact fun hr => not_reaches_D4 (by simpa [D4] using hr)
  · subst hc
    exact absurd (by simpa [D4, nth] using hA) ncov_tFar_00

/-- Witness for C9 on the two-transceiver scenario: the single yielded route
`[0, 1]` has two elements. -/
theorem yields_length_ge_two_witness :
    [0, 1] ∈ generate_possible_routes [tA, tB] 0 ∧ 2 ≤ ([0, 1] : Route).length := by
  have hmem : [0, 1] ∈ generate_possible_routes [tA, tB] 0 := by
    rw [gen_D1_eval]
    simp
  exact ⟨hmem, (yields_length_ge_two [tA, tB] 0).1 [0, 1] hmem⟩

/-- Witness for C10 on the two-transceiver scenario: one route is yielded,
its last index is not the start, and `1 ≤ 2 - 1`. -/
theorem yields_lasts_nodup_and_bound_witness :
    (0 : Nat) < ([tA, tB] : List Transceiver).length ∧
    (((generate_possible_routes [tA, tB] 0).map lastIdx).Nodup ∧
    0 ∉ (generate_possible_routes [tA, tB] 0).map lastIdx ∧
    (generate_possible_routes [tA, tB] 0).length ≤ ([tA, tB] : List Transceiver).length - 1) := by
  have hs : (0 : Nat) < ([tA, tB] : List Transceiver).length := by simp
  exact ⟨hs, yields_lasts_nodup_and_bound [tA, tB] 0 hs⟩
